import Mathlib

/-!
Verification of the `pocketsphinx_kws_train` plugin (file `__init__.py`,
method `Pocketsphinx_KWS_Train.HandleCommand`).

The development shallowly embeds the plugin's adaptive threshold-search
state machine:

* the string step token `"step:start:end:stepsize:samples:step"`
  (encode = Python `"step:{}:{}:{}:{}:{}".format(...)`, decode = the
  regex `^step:([-\d]+):([-\d]+):([-\d]+):([-\d]+):([-\d]+)$` followed by
  `int(...)`);
* the per-sample confusion-count loop and the precision/recall/f1
  computation (exact rational arithmetic standing in for SQLite REAL
  values, represented as numerator/denominator pairs compared by
  cross-multiplication so that all definitions kernel-evaluate);
* the `pocketsphinx_kws_temp` trial table (the ledger) and the ad hoc
  SQL aggregates (`max(f1)`, `count(*) where f1 = ...`, the
  `case when exists(...)` lower-bound query);
* the controller transition of one `HandleCommand` invocation, with the
  decoder/corpus/dictionary machinery abstracted as an injected
  evaluator that may fail (the `except` path of the source), and
  `profile.set_profile_var(['pocketsphinx_kws','threshold'], best)`
  modelled as the persisted best-threshold value;
* a driver iterating invocations on the returned `nextcommand`.
-/

/-! ### Decimal digits and integer printing (Python `str(int)`) -/

def digitChar (d : Nat) : Char := Char.ofNat (48 + d)

def digitVal (c : Char) : Nat := c.toNat - 48

def isDigitChar (c : Char) : Bool := decide ('0' ≤ c) && decide (c ≤ '9')

/-- Digit list of `n`, most significant first; the fuel argument makes the
definition structurally recursive so that it evaluates inside the kernel. -/
def natCharsFuel : Nat → Nat → List Char
  | 0, _ => []
  | fuel + 1, n => if n < 10 then [digitChar n] else natCharsFuel fuel (n / 10) ++ [digitChar (n % 10)]

def natChars (n : Nat) : List Char := natCharsFuel (n + 1) n

/-- Characters of Python `str(i)` for an integer `i`. -/
def intChars (i : Int) : List Char := if i < 0 then '-' :: natChars i.natAbs else natChars i.toNat

def intStr (i : Int) : String := String.mk (intChars i)

/-- Value of a digit string, most significant first. -/
def natVal (l : List Char) : Nat := l.foldl (fun acc c => acc * 10 + digitVal c) 0

/-- Python `int(...)` on a string matched by `[-\d]+`: nonempty all-digit
string, or `'-'` followed by one.  Anything else raises, i.e. `none`. -/
def parseNat (l : List Char) : Option Nat :=
  if l.isEmpty then none
  else if l.all isDigitChar then some (natVal l) else none

def parseInt (l : List Char) : Option Int :=
  match l with
  | [] => none
  | c :: rest =>
    if c = '-' then
      match parseNat rest with
      | some n => some (-(n : Int))
      | none => none
    else
      match parseNat (c :: rest) with
      | some n => some ((n : Int))
      | none => none

/-! ### Splitting on `':'` -/

def splitColon : List Char → List (List Char)
  | [] => [[]]
  | c :: rest =>
    if c = ':' then [] :: splitColon rest
    else
      match splitColon rest with
      | [] => [[c]]
      | g :: gs => (c :: g) :: gs

theorem splitColon_ne_nil (l : List Char) : splitColon l ≠ [] := by
  induction l with
  | nil => simp [splitColon]
  | cons c rest ih =>
    simp only [splitColon]
    by_cases h : c = ':'
    · simp [h]
    · simp only [h, if_false]
      cases hs : splitColon rest with
      | nil => simp
      | cons g gs => simp

theorem splitColon_no_colon (l : List Char) (h : ':' ∉ l) : splitColon l = [l] := by
  induction l with
  | nil => rfl
  | cons c rest ih =>
    simp only [List.mem_cons, not_or] at h
    have hc : ¬ c = ':' := fun hcc => h.1 hcc.symm
    simp only [splitColon, hc, if_false]
    rw [ih h.2]

theorem splitColon_append (a b : List Char) (h : ':' ∉ a) :
    splitColon (a ++ ':' :: b) = a :: splitColon b := by
  induction a with
  | nil => simp [splitColon]
  | cons c rest ih =>
    simp only [List.mem_cons, not_or] at h
    have hc : ¬ c = ':' := fun hcc => h.1 hcc.symm
    have ih' := ih h.2
    show splitColon (c :: (rest ++ ':' :: b)) = (c :: rest) :: splitColon b
    simp only [splitColon, hc, if_false, ih']

/-! ### Digit facts -/

theorem digitChar_spec (d : Nat) (h : d < 10) :
    isDigitChar (digitChar d) = true ∧ digitVal (digitChar d) = d ∧
      digitChar d ≠ ':' ∧ digitChar d ≠ '-' := by
  interval_cases d <;> exact ⟨by decide, by decide, by decide, by decide⟩

theorem isDigitChar_ne_colon (c : Char) (h : isDigitChar c = true) : c ≠ ':' := by
  intro hc; subst hc; exact absurd h (by decide)

theorem isDigitChar_ne_dash (c : Char) (h : isDigitChar c = true) : c ≠ '-' := by
  intro hc; subst hc; exact absurd h (by decide)

theorem natCharsFuel_spec (fuel : Nat) :
    ∀ n : Nat, n < fuel →
      natCharsFuel fuel n ≠ [] ∧ (natCharsFuel fuel n).all isDigitChar = true ∧
        natVal (natCharsFuel fuel n) = n := by
  induction fuel with
  | zero => intro n hn; omega
  | succ f ih =>
    intro n hn
    by_cases h10 : n < 10
    · simp only [natCharsFuel, h10, if_true]
      obtain ⟨hd, hv, _, _⟩ := digitChar_spec n h10
      refine ⟨by simp, by simp [hd], ?_⟩
      simp [natVal, hv]
    · simp only [natCharsFuel, h10, if_false]
      have hdiv : n / 10 < f := by
        have : n / 10 < n := Nat.div_lt_self (by omega) (by omega)
        omega
      obtain ⟨hne, hall, hval⟩ := ih (n / 10) hdiv
      obtain ⟨hd, hv, _, _⟩ := digitChar_spec (n % 10) (Nat.mod_lt _ (by omega))
      refine ⟨by simp, ?_, ?_⟩
      · simp only [List.all_append, hall, Bool.true_and, List.all_cons, hd, List.all_nil,
          Bool.and_true]
      · simp only [natVal, List.foldl_append, List.foldl_cons, List.foldl_nil]
        have : natVal (natCharsFuel f (n / 10)) = n / 10 := hval
        simp only [natVal] at this
        rw [this, hv]
        omega

theorem natChars_spec (n : Nat) :
    natChars n ≠ [] ∧ (natChars n).all isDigitChar = true ∧ natVal (natChars n) = n :=
  natCharsFuel_spec (n + 1) n (Nat.lt_succ_self n)

theorem parseNat_natChars (n : Nat) : parseNat (natChars n) = some n := by
  obtain ⟨hne, hall, hval⟩ := natChars_spec n
  simp only [parseNat, List.isEmpty_iff, hne, if_false, hall, if_true, hval]

theorem natChars_not_mem_colon (n : Nat) : ':' ∉ natChars n := by
  obtain ⟨_, hall, _⟩ := natChars_spec n
  intro hmem
  have := List.all_eq_true.mp hall ':' hmem
  exact absurd this (by decide)

theorem intChars_not_mem_colon (i : Int) : ':' ∉ intChars i := by
  unfold intChars
  by_cases h : i < 0
  · simp only [h, if_true, List.mem_cons, not_or]
    exact ⟨by decide, natChars_not_mem_colon _⟩
  · simp only [h, if_false]
    exact natChars_not_mem_colon _

theorem parseInt_intChars (i : Int) : parseInt (intChars i) = some i := by
  unfold intChars
  by_cases h : i < 0
  · simp only [h, if_true, parseInt, if_pos rfl, parseNat_natChars]
    congr 1
    omega
  · simp only [h, if_false]
    obtain ⟨hne, hall, _⟩ := natChars_spec i.toNat
    cases hl : natChars i.toNat with
    | nil => exact absurd hl hne
    | cons c rest =>
      have hcd : isDigitChar c = true := by
        have := List.all_eq_true.mp (hl ▸ hall) c (by simp)
        exact this
      simp only [parseInt, isDigitChar_ne_dash c hcd, if_false]
      rw [← hl, parseNat_natChars]
      show some ((i.toNat : Int)) = some i
      congr 1
      omega

/-! ### The step token (`"step:{}:{}:{}:{}:{}".format(...)` and its regex parse) -/

structure StepParams where
  start : Int
  stop : Int
  stepsize : Int
  samples : Int
  cursor : Int
deriving DecidableEq, Repr

def stepChars (a b c d e : Int) : List Char :=
  's' :: 't' :: 'e' :: 'p' :: ':' ::
    (intChars a ++ ':' :: (intChars b ++ ':' :: (intChars c ++ ':' :: (intChars d ++ ':' :: intChars e))))

def encodeStep (a b c d e : Int) : String := String.mk (stepChars a b c d e)

def decodeChars (l : List Char) : Option StepParams :=
  match splitColon l with
  | [w, a, b, c, d, e] =>
    if w = ['s', 't', 'e', 'p'] then
      match parseInt a, parseInt b, parseInt c, parseInt d, parseInt e with
      | some a', some b', some c', some d', some e' => some ⟨a', b', c', d', e'⟩
      | _, _, _, _, _ => none
    else none
  | _ => none

def decodeStep (s : String) : Option StepParams := decodeChars s.toList

theorem splitColon_stepChars (a b c d e : Int) :
    splitColon (stepChars a b c d e) =
      [['s', 't', 'e', 'p'], intChars a, intChars b, intChars c, intChars d, intChars e] := by
  have h4 : stepChars a b c d e =
      ['s', 't', 'e', 'p'] ++ ':' ::
        (intChars a ++ ':' :: (intChars b ++ ':' :: (intChars c ++ ':' :: (intChars d ++ ':' :: intChars e)))) := rfl
  rw [h4, splitColon_append _ _ (by decide),
    splitColon_append _ _ (intChars_not_mem_colon a),
    splitColon_append _ _ (intChars_not_mem_colon b),
    splitColon_append _ _ (intChars_not_mem_colon c),
    splitColon_append _ _ (intChars_not_mem_colon d),
    splitColon_no_colon _ (intChars_not_mem_colon e)]

theorem decodeStep_encodeStep (a b c d e : Int) :
    decodeStep (encodeStep a b c d e) = some ⟨a, b, c, d, e⟩ := by
  show decodeChars (stepChars a b c d e) = some ⟨a, b, c, d, e⟩
  unfold decodeChars
  rw [splitColon_stepChars]
  simp [parseInt_intChars]

/-! ### Exact fraction values

SQLite stores `precision`, `recall`, `f1` as REAL; the search logic only
compares these values (`max(f1)`, `f1 = ...`, `maxf1 > f1`).  We model the
values exactly as numerator/denominator pairs of naturals (every value the
program builds is a quotient of confusion counts, hence nonnegative), with
comparisons by cross-multiplication.  `Frac.toRat` maps to `ℚ` for the
metric-bound theorems. -/

structure Frac where
  num : Nat
  den : Nat
deriving DecidableEq, Repr

def Frac.lt (x y : Frac) : Prop := x.num * y.den < y.num * x.den

def Frac.eqv (x y : Frac) : Prop := x.num * y.den = y.num * x.den

instance (x y : Frac) : Decidable (x.lt y) := Nat.decLt _ _

instance (x y : Frac) : Decidable (x.eqv y) := Nat.decEq _ _

def Frac.add (x y : Frac) : Frac := ⟨x.num * y.den + y.num * x.den, x.den * y.den⟩

def Frac.mul (x y : Frac) : Frac := ⟨x.num * y.num, x.den * y.den⟩

def Frac.div (x y : Frac) : Frac := ⟨x.num * y.den, x.den * y.num⟩

def Frac.zero : Frac := ⟨0, 1⟩

def Frac.toRat (x : Frac) : ℚ := (x.num : ℚ) / (x.den : ℚ)

theorem Frac.toRat_zero : Frac.zero.toRat = 0 := by simp [Frac.toRat, Frac.zero]

theorem Frac.toRat_nonneg (x : Frac) : 0 ≤ x.toRat :=
  div_nonneg (by positivity) (by positivity)

theorem Frac.lt_iff (x y : Frac) (hx : 0 < x.den) (hy : 0 < y.den) :
    x.lt y ↔ x.toRat < y.toRat := by
  unfold Frac.lt Frac.toRat
  rw [div_lt_div_iff₀ (by exact_mod_cast hx) (by exact_mod_cast hy)]
  exact_mod_cast Iff.rfl

theorem Frac.eqv_iff (x y : Frac) (hx : 0 < x.den) (hy : 0 < y.den) :
    x.eqv y ↔ x.toRat = y.toRat := by
  unfold Frac.eqv Frac.toRat
  rw [div_eq_div_iff (Nat.cast_ne_zero.mpr hx.ne' : (x.den : ℚ) ≠ 0)
    (Nat.cast_ne_zero.mpr hy.ne' : (y.den : ℚ) ≠ 0)]
  exact_mod_cast Iff.rfl

theorem Frac.toRat_add (x y : Frac) (hx : 0 < x.den) (hy : 0 < y.den) :
    (x.add y).toRat = x.toRat + y.toRat := by
  unfold Frac.add Frac.toRat
  have hx' : (x.den : ℚ) ≠ 0 := Nat.cast_ne_zero.mpr hx.ne'
  have hy' : (y.den : ℚ) ≠ 0 := Nat.cast_ne_zero.mpr hy.ne'
  push_cast
  field_simp

theorem Frac.toRat_mul (x y : Frac) (hx : 0 < x.den) (hy : 0 < y.den) :
    (x.mul y).toRat = x.toRat * y.toRat := by
  unfold Frac.mul Frac.toRat
  have hx' : (x.den : ℚ) ≠ 0 := Nat.cast_ne_zero.mpr hx.ne'
  have hy' : (y.den : ℚ) ≠ 0 := Nat.cast_ne_zero.mpr hy.ne'
  push_cast
  field_simp

theorem Frac.toRat_div (x y : Frac) (hx : 0 < x.den) (hy : 0 < y.den) (hyn : 0 < y.num) :
    (x.div y).toRat = x.toRat / y.toRat := by
  unfold Frac.div Frac.toRat
  have hx' : (x.den : ℚ) ≠ 0 := Nat.cast_ne_zero.mpr hx.ne'
  have hy' : (y.den : ℚ) ≠ 0 := Nat.cast_ne_zero.mpr hy.ne'
  have hyn' : (y.num : ℚ) ≠ 0 := Nat.cast_ne_zero.mpr hyn.ne'
  push_cast
  field_simp

/-! ### Confusion-matrix metrics (source lines 278-286) -/

/-- Source: `precision = 0; if(true_positives + false_positives > 0): precision =
true_positives/(true_positives+false_positives)`. -/
def precisionOf (tp fp : Nat) : Frac :=
  if 0 < tp + fp then ⟨tp, tp + fp⟩ else Frac.zero

/-- Source: `recall = 0; if(true_positives + false_negatives > 0): recall =
true_positives/(true_positives+false_negatives)`. -/
def recallOf (tp fn : Nat) : Frac :=
  if 0 < tp + fn then ⟨tp, tp + fn⟩ else Frac.zero

/-- Source: `f1 = 0; if(precision+recall > 0): f1 = 2*(precision*recall/(precision+recall))`. -/
def f1Of (p r : Frac) : Frac :=
  if Frac.lt Frac.zero (p.add r) then Frac.mul ⟨2, 1⟩ ((p.mul r).div (p.add r)) else Frac.zero

/-- The running state of the per-recording loop (source lines 198-295):
accumulated totals and the metric values as recomputed on every iteration. -/
structure EvalCounts where
  total_instances : Nat
  total_detected : Nat
  false_positives : Nat
  false_negatives : Nat
  true_positives : Nat
  precision : Frac
  «recall» : Frac
  f1 : Frac
deriving DecidableEq, Repr

def initialCounts : EvalCounts :=
  ⟨0, 0, 0, 0, 0, Frac.zero, Frac.zero, Frac.zero⟩

/-- One iteration of the recording loop (source lines 233-295).  A recording
contributes `transcript_count` (occurrences of the keyword in the verified
transcription, first component) and `decoder_count` (detections reported by
the decoder, second component). -/
def evalRecording (st : EvalCounts) (rec : Nat × Nat) : EvalCounts :=
  let transcript_count := rec.1
  let decoder_count := rec.2
  let total_instances := st.total_instances + transcript_count
  let total_detected := st.total_detected + decoder_count
  let (true_positives, false_positives, false_negatives) :=
    if decoder_count < transcript_count then
      (st.true_positives + decoder_count, st.false_positives,
        st.false_negatives + (transcript_count - decoder_count))
    else
      (st.true_positives + transcript_count,
        st.false_positives + (decoder_count - transcript_count), st.false_negatives)
  let precision := precisionOf true_positives false_positives
  let «recall» := recallOf true_positives false_negatives
  ⟨total_instances, total_detected, false_positives, false_negatives, true_positives,
    precision, «recall», f1Of precision «recall»⟩

/-- The whole recording loop over the rows returned by the corpus query. -/
def evalRecordings (test_data : List (Nat × Nat)) : EvalCounts :=
  test_data.foldl evalRecording initialCounts

/-! ### The trial ledger (`pocketsphinx_kws_temp`) and its SQL aggregates -/

/-- One row of `pocketsphinx_kws_temp` (source lines 296-300). -/
structure Trial where
  keyword : String
  threshold : Int
  precision : Frac
  «recall» : Frac
  f1 : Frac
deriving DecidableEq, Repr

def mkTrial (kw : String) (threshold : Int) (ev : EvalCounts) : Trial :=
  ⟨kw, threshold, ev.precision, ev.«recall», ev.f1⟩

/-- Query `select max(f1) from pocketsphinx_kws_temp` (on an empty table SQL
yields NULL, which compares as false everywhere it is used; the zero value
behaves identically because every stored f1 is nonnegative). -/
def maxF1 : List Trial → Frac
  | [] => Frac.zero
  | t :: ts => if Frac.lt t.f1 (maxF1 ts) then maxF1 ts else t.f1

/-- Query `select count(*) from pocketsphinx_kws_temp where f1 = {v}`. -/
def countAt (l : List Trial) (v : Frac) : Nat :=
  (l.filter fun t => decide (t.f1.eqv v)).length

def listMinInt : List Int → Int
  | [] => 0
  | [x] => x
  | x :: y :: ys => min x (listMinInt (y :: ys))

def listMaxInt : List Int → Int
  | [] => 0
  | [x] => x
  | x :: y :: ys => max x (listMaxInt (y :: ys))

/-- Query `select min(threshold) from pocketsphinx_kws_temp where f1 = {v}`. -/
def minThresholdAchieving (l : List Trial) (v : Frac) : Int :=
  listMinInt ((l.filter fun t => decide (t.f1.eqv v)).map Trial.threshold)

/-- The `case when exists(...)` query of source lines 323-354: the largest
threshold strictly below `bound` if one exists, otherwise the smallest
threshold in the table. -/
def minThresholdBelow (l : List Trial) (bound : Int) : Int :=
  let ts := l.map Trial.threshold
  let below := ts.filter fun t => decide (t < bound)
  if below.isEmpty then listMinInt ts else listMaxInt below

/-! ### Response lines and keyword normalization -/

def charUpper (c : Char) : Char :=
  if 'a' ≤ c ∧ c ≤ 'z' then Char.ofNat (c.toNat - 32) else c

/-- Python `str.upper()` restricted to ASCII, which is all the plugin needs. -/
def upperAscii (s : String) : String := String.mk (s.toList.map charUpper)

def dividerLine : String := "<pre>" ++ String.mk (List.replicate 101 '-') ++ "</pre>"

/-- The column-header row (the source's `"Theshold"` typo kept; fixed-width
padding elided as presentation). -/
def headerLine : String :=
  "<pre>|Keyword|Theshold|Detected|TP|FP|FN|Precision|Recall|F1|</pre>"

/-- The per-trial report row; float padding elided as presentation. -/
def trialLine (t : Trial) (ev : EvalCounts) : String :=
  "<pre>|" ++ t.keyword ++ "|" ++ intStr t.threshold ++ "|" ++
    intStr ev.total_detected ++ "/" ++ intStr ev.total_instances ++ "|" ++
    intStr ev.true_positives ++ "|" ++ intStr ev.false_positives ++ "|" ++
    intStr ev.false_negatives ++ "|</pre>"

def bestLine (best : Int) : String := "Best threshold: " ++ intStr best

def failureLine (msg : String) : String :=
  "<span class=\"failure\">" ++ msg ++ "</span>"

/-! ### The controller (`HandleCommand`, source lines 106-417)

The decoder, dictionary compilation and the corpus query are abstracted as
an injected evaluator `evalFn keyword threshold samples` returning the
`(transcript_count, decoder_count)` pairs of the selected recordings, or an
error message when the step's external machinery raises.  The profile entry
`['pocketsphinx_kws', 'threshold']` is the `Option Int` threaded through. -/

/-- The mutable locals of the keyword loop: `best`, `command`, `nextcommand`,
`continue_next`, `start`, `end`, `samples`, the response so far and the
ledger table. -/
structure LoopSt where
  ledger : List Trial
  response : List String
  best : Int
  command : String
  nextcommand : String
  continueNext : Bool
  start : Int
  stop : Int
  samples : Int
deriving DecidableEq, Repr

/-- Source lines 313-389: after inserting the keyword's trial, compare the
trial's f1 with `max(f1)` and either keep scanning, declare the unique
optimum, refine with doubled samples, or stop on an exhausted sample
budget. -/
def peakCheck (threshold stepsize : Int) (f1v : Frac) (st : LoopSt) : LoopSt :=
  let maxf1 := maxF1 st.ledger
  if Frac.lt f1v maxf1 then
    let countmax := countAt st.ledger maxf1
    let newStart := minThresholdBelow st.ledger (minThresholdAchieving st.ledger maxf1)
    let st1 := { st with start := newStart, stop := threshold }
    if countmax = 1 then
      { st1 with best := newStart, command := "finish" }
    else if st1.samples < 100 then
      { st1 with
          ledger := [],
          samples := st1.samples * 2,
          nextcommand :=
            encodeStep newStart threshold stepsize (st1.samples * 2) newStart }
    else
      { st1 with
          continueNext := false, command := "finish",
          best := minThresholdAchieving st1.ledger maxf1 }
  else st

/-- One iteration of the `for keyword in self.keywords` loop (source lines
168-389): evaluate the keyword at the current threshold, insert the trial
row, then run the peak check. -/
def stepKeyword (evalFn : String → Int → Int → Except String (List (Nat × Nat)))
    (threshold stepsize : Int) (st : LoopSt) (kw : String) : LoopSt × Option String :=
  let keyword := upperAscii kw
  match evalFn keyword threshold st.samples with
  | .error msg => (st, some msg)
  | .ok test_data =>
    let ev := evalRecordings test_data
    let trial := mkTrial keyword threshold ev
    let st1 := { st with
        ledger := st.ledger ++ [trial],
        response := st.response ++ [trialLine trial ev] }
    (peakCheck threshold stepsize ev.f1 st1, none)

/-- The keyword loop; an exception aborts the loop but keeps the state
already committed (rows inserted and lines appended so far). -/
def runKeywords (evalFn : String → Int → Int → Except String (List (Nat × Nat)))
    (threshold stepsize : Int) : LoopSt → List String → LoopSt × Option String
  | st, [] => (st, none)
  | st, kw :: kws =>
    match stepKeyword evalFn threshold stepsize st kw with
    | (st1, some msg) => (st1, some msg)
    | (st1, none) => runKeywords evalFn threshold stepsize st1 kws

/-- What one invocation returns and leaves behind: the report lines, the
next command token, the table contents, the persisted
`pocketsphinx_kws.threshold` profile entry, and whether the `except`
handler ran. -/
structure StepResult where
  response : List String
  nextcommand : String
  ledger : List Trial
  profileVar : Option Int
  failed : Bool
deriving DecidableEq, Repr

/-- One invocation of `HandleCommand` (source lines 106-417). -/
def HandleCommand (keywords : List String)
    (evalFn : String → Int → Int → Except String (List (Nat × Nat)))
    (command : String) (ledger : List Trial) (profileVar : Option Int) : StepResult :=
  let init :=
    if command = "" then
      (("step:-10:10:1:20:-10" : String), [dividerLine, headerLine, dividerLine],
        ([] : List Trial))
    else (command, ([] : List String), ledger)
  let command1 := init.1
  let response0 := init.2.1
  let ledger0 := init.2.2
  if command1.toList.take 4 = ['s', 't', 'e', 'p'] then
    match decodeStep command1 with
    | none =>
      ⟨response0 ++ [failureLine "Unknown"], "", ledger0, profileVar, true⟩
    | some p =>
      let nextcommand :=
        if p.cursor < p.stop then
          encodeStep p.start p.stop p.stepsize p.samples (p.cursor + p.stepsize)
        else "finish"
      let st0 : LoopSt :=
        ⟨ledger0, response0, 0, command1, nextcommand, true, p.start, p.stop, p.samples⟩
      match runKeywords evalFn p.cursor p.stepsize st0 keywords with
      | (st1, some msg) =>
        ⟨st1.response ++ [failureLine msg], "", st1.ledger, profileVar, true⟩
      | (st1, none) =>
        if st1.command = "finish" then
          ⟨st1.response ++ [dividerLine, bestLine st1.best], "", st1.ledger,
            some st1.best, false⟩
        else
          ⟨st1.response, if st1.continueNext then st1.nextcommand else "", st1.ledger,
            profileVar, false⟩
  else if command1 = "finish" then
    ⟨response0 ++ [dividerLine, bestLine 0], "", ledger0, some 0, false⟩
  else
    ⟨response0, "", ledger0, profileVar, false⟩

/-- Driving the plugin the way `NaomiSTTTrainer.py` does: re-invoke with the
returned `nextcommand` until it is the terminal sentinel `""`.  Returns the
number of invocations used together with the final table and profile entry,
or `none` if the fuel runs out first. -/
def runSearch (keywords : List String)
    (evalFn : String → Int → Int → Except String (List (Nat × Nat))) :
    Nat → String → List Trial → Option Int → Option (Nat × List Trial × Option Int)
  | 0, _, _, _ => none
  | fuel + 1, command, ledger, profileVar =>
    let r := HandleCommand keywords evalFn command ledger profileVar
    if r.nextcommand = "" then some (1, r.ledger, r.profileVar)
    else
      match runSearch keywords evalFn fuel r.nextcommand r.ledger r.profileVar with
      | none => none
      | some (k, l, p) => some (k + 1, l, p)

set_option maxRecDepth 10000

/-! ### Metric facts supporting the f1 bounds -/

theorem precisionOf_den_pos (tp fp : Nat) : 0 < (precisionOf tp fp).den := by
  unfold precisionOf
  split
  · simpa using by omega
  · simp [Frac.zero]

theorem recallOf_den_pos (tp fn : Nat) : 0 < (recallOf tp fn).den := by
  unfold recallOf
  split
  · simpa using by omega
  · simp [Frac.zero]

theorem precisionOf_toRat (tp fp : Nat) :
    (precisionOf tp fp).toRat = if 0 < tp + fp then (tp : ℚ) / ((tp : ℚ) + (fp : ℚ)) else 0 := by
  unfold precisionOf
  split
  · simp [Frac.toRat]
  · simp [Frac.toRat_zero]

theorem recallOf_toRat (tp fn : Nat) :
    (recallOf tp fn).toRat = if 0 < tp + fn then (tp : ℚ) / ((tp : ℚ) + (fn : ℚ)) else 0 := by
  unfold recallOf
  split
  · simp [Frac.toRat]
  · simp [Frac.toRat_zero]

theorem precisionOf_toRat_le_one (tp fp : Nat) : (precisionOf tp fp).toRat ≤ 1 := by
  rw [precisionOf_toRat]
  split
  · apply div_le_one_of_le₀
    · linarith [Nat.cast_nonneg (α := ℚ) fp]
    · positivity
  · norm_num

theorem recallOf_toRat_le_one (tp fn : Nat) : (recallOf tp fn).toRat ≤ 1 := by
  rw [recallOf_toRat]
  split
  · apply div_le_one_of_le₀
    · linarith [Nat.cast_nonneg (α := ℚ) fn]
    · positivity
  · norm_num

theorem f1Of_toRat (p r : Frac) (hp : 0 < p.den) (hr : 0 < r.den) :
    (f1Of p r).toRat =
      if 0 < p.toRat + r.toRat then 2 * (p.toRat * r.toRat / (p.toRat + r.toRat)) else 0 := by
  have hadd : 0 < (p.add r).den := by
    simp only [Frac.add]
    positivity
  have hcond : Frac.lt Frac.zero (p.add r) ↔ 0 < p.toRat + r.toRat := by
    rw [Frac.lt_iff _ _ (by simp [Frac.zero]) hadd, Frac.toRat_zero,
      Frac.toRat_add p r hp hr]
  unfold f1Of
  split
  case isTrue hl =>
    rw [if_pos (hcond.mp hl)]
    have hnum : 0 < (p.add r).num := by
      have := hl
      simp only [Frac.lt, Frac.zero] at this
      omega
    have hmulden : 0 < (p.mul r).den := by
      simp only [Frac.mul]
      positivity
    rw [Frac.toRat_mul _ _ (by norm_num) (by simp only [Frac.div, Frac.mul, Frac.add]; positivity),
      Frac.toRat_div _ _ hmulden hadd hnum, Frac.toRat_mul p r hp hr,
      Frac.toRat_add p r hp hr]
    norm_num [Frac.toRat]
  case isFalse hl =>
    rw [if_neg (fun hpos => hl (hcond.mpr hpos)), Frac.toRat_zero]

theorem f1Of_toRat_nonneg (p r : Frac) : 0 ≤ (f1Of p r).toRat := Frac.toRat_nonneg _

theorem f1Of_toRat_le_one (p r : Frac) (hp : 0 < p.den) (hr : 0 < r.den)
    (hp1 : p.toRat ≤ 1) (hr1 : r.toRat ≤ 1) : (f1Of p r).toRat ≤ 1 := by
  rw [f1Of_toRat p r hp hr]
  split
  case isTrue h =>
    have hp0 := Frac.toRat_nonneg p
    have hr0 := Frac.toRat_nonneg r
    rw [← mul_div_assoc, div_le_one h]
    nlinarith [mul_nonneg (sub_nonneg.mpr hp1) hr0, mul_nonneg (sub_nonneg.mpr hr1) hp0]
  case isFalse => norm_num

/-! ### Claims C6, C8, C9 -/

/-- Claim C6 (confirmed): for every Scanning state with integer fields
`(start, end, stepsize, samples, cursor)`, decoding the encoded token
`"step:start:end:stepsize:samples:cursor"` recovers exactly the same five
field values: `decode (encode s) = s`. -/
theorem claim_C6_token_roundtrip (a b c d e : Int) :
    decodeStep (encodeStep a b c d e) = some ⟨a, b, c, d, e⟩ :=
  decodeStep_encodeStep a b c d e

/-- Claim C8 (confirmed): for all accumulated counts `tp fp fn ≥ 0`, the
computed precision is `tp/(tp+fp)` when `tp+fp > 0` and otherwise `0`,
recall is `tp/(tp+fn)` when `tp+fn > 0` and otherwise `0`, f1 is
`2·p·r/(p+r)` when `p+r > 0` and otherwise `0`; consequently
`f1 ∈ [0,1]` and `f1 = 0` whenever `tp = 0` (the guarded branches return
`0` instead of dividing by zero). -/
theorem claim_C8_metric_bounds (tp fp fn : Nat) :
    (precisionOf tp fp).toRat = (if 0 < tp + fp then (tp : ℚ) / ((tp : ℚ) + (fp : ℚ)) else 0) ∧
    (recallOf tp fn).toRat = (if 0 < tp + fn then (tp : ℚ) / ((tp : ℚ) + (fn : ℚ)) else 0) ∧
    (f1Of (precisionOf tp fp) (recallOf tp fn)).toRat =
      (if 0 < (precisionOf tp fp).toRat + (recallOf tp fn).toRat then
        2 * ((precisionOf tp fp).toRat * (recallOf tp fn).toRat /
          ((precisionOf tp fp).toRat + (recallOf tp fn).toRat))
      else 0) ∧
    0 ≤ (f1Of (precisionOf tp fp) (recallOf tp fn)).toRat ∧
    (f1Of (precisionOf tp fp) (recallOf tp fn)).toRat ≤ 1 ∧
    (tp = 0 → (f1Of (precisionOf tp fp) (recallOf tp fn)).toRat = 0) := by
  refine ⟨precisionOf_toRat tp fp, recallOf_toRat tp fn,
    f1Of_toRat _ _ (precisionOf_den_pos tp fp) (recallOf_den_pos tp fn),
    f1Of_toRat_nonneg _ _,
    f1Of_toRat_le_one _ _ (precisionOf_den_pos tp fp) (recallOf_den_pos tp fn)
      (precisionOf_toRat_le_one tp fp) (recallOf_toRat_le_one tp fn), ?_⟩
  intro htp
  subst htp
  have hpz : (precisionOf 0 fp).toRat = 0 := by
    rw [precisionOf_toRat]
    split <;> simp
  have hrz : (recallOf 0 fn).toRat = 0 := by
    rw [recallOf_toRat]
    split <;> simp
  rw [f1Of_toRat _ _ (precisionOf_den_pos 0 fp) (recallOf_den_pos 0 fn), hpz, hrz]
  norm_num

/-- Witness for claim C8 at `tp = 0`, `fp = 2`, `fn = 3`. -/
theorem claim_C8_witness :
    (precisionOf 0 2).toRat = (if 0 < 0 + 2 then (0 : ℚ) / ((0 : ℚ) + (2 : ℚ)) else 0) ∧
    (recallOf 0 3).toRat = (if 0 < 0 + 3 then (0 : ℚ) / ((0 : ℚ) + (3 : ℚ)) else 0) ∧
    (f1Of (precisionOf 0 2) (recallOf 0 3)).toRat =
      (if 0 < (precisionOf 0 2).toRat + (recallOf 0 3).toRat then
        2 * ((precisionOf 0 2).toRat * (recallOf 0 3).toRat /
          ((precisionOf 0 2).toRat + (recallOf 0 3).toRat))
      else 0) ∧
    0 ≤ (f1Of (precisionOf 0 2) (recallOf 0 3)).toRat ∧
    (f1Of (precisionOf 0 2) (recallOf 0 3)).toRat ≤ 1 ∧
    ((0 : Nat) = 0 → (f1Of (precisionOf 0 2) (recallOf 0 3)).toRat = 0) :=
  claim_C8_metric_bounds 0 2 3

/-- Claim C9 (confirmed): for every evaluated recording, if
`decoder_count < transcript_count` the shortfall is added to the false
negatives and `decoder_count` to the true positives; otherwise the excess
is added to the false positives and `transcript_count` (the ground-truth
count) to the true positives. -/
theorem claim_C9_reconciliation (st : EvalCounts) (tc dc : Nat) :
    (evalRecording st (tc, dc)).false_negatives =
        (if dc < tc then st.false_negatives + (tc - dc) else st.false_negatives) ∧
    (evalRecording st (tc, dc)).false_positives =
        (if dc < tc then st.false_positives else st.false_positives + (dc - tc)) ∧
    (evalRecording st (tc, dc)).true_positives =
        (if dc < tc then st.true_positives + dc else st.true_positives + tc) := by
  by_cases h : dc < tc <;> simp [evalRecording, h]

/-! ### Characterizing one invocation on a step token -/

theorem encodeStep_toList (a b c d e : Int) :
    (encodeStep a b c d e).toList = stepChars a b c d e := rfl

theorem encodeStep_ne_empty (a b c d e : Int) : encodeStep a b c d e ≠ "" := by
  intro h
  have h2 : stepChars a b c d e = "".toList := by
    rw [← encodeStep_toList, h]
  simp only [stepChars] at h2
  exact absurd h2 (by intro hh; cases hh)

theorem encodeStep_ne_finish (a b c d e : Int) : encodeStep a b c d e ≠ "finish" := by
  intro h
  have h2 : stepChars a b c d e = "finish".toList := by
    rw [← encodeStep_toList, h]
  simp only [stepChars] at h2
  injection h2 with h3 _
  exact absurd h3 (by decide)

theorem encodeStep_take4 (a b c d e : Int) :
    (encodeStep a b c d e).toList.take 4 = ['s', 't', 'e', 'p'] := rfl

/-- The trial row recorded for keyword `kw` at threshold `c` from the
evaluated recordings `data`. -/
def trialOf (kw : String) (threshold : Int) (data : List (Nat × Nat)) : Trial :=
  mkTrial (upperAscii kw) threshold (evalRecordings data)

/-- The outcome of one invocation on token `step:s:e:ss:m:c` with a single
configured keyword whose evaluation succeeds: the four-way case split of
source lines 313-394. -/
def stepOutcome (kw : String) (s e ss m c : Int) (L : List Trial) (prof : Option Int)
    (data : List (Nat × Nat)) : StepResult :=
  let ev := evalRecordings data
  let T := mkTrial (upperAscii kw) c ev
  let L' := L ++ [T]
  let mf := maxF1 L'
  let nextcmd := if c < e then encodeStep s e ss m (c + ss) else "finish"
  if Frac.lt ev.f1 mf then
    let nl := minThresholdBelow L' (minThresholdAchieving L' mf)
    if countAt L' mf = 1 then
      ⟨[trialLine T ev, dividerLine, bestLine nl], "", L', some nl, false⟩
    else if m < 100 then
      ⟨[trialLine T ev], encodeStep nl c ss (m * 2) nl, [], prof, false⟩
    else
      ⟨[trialLine T ev, dividerLine, bestLine (minThresholdAchieving L' mf)], "", L',
        some (minThresholdAchieving L' mf), false⟩
  else
    ⟨[trialLine T ev], nextcmd, L', prof, false⟩

theorem HandleCommand_step (kw : String)
    (evalFn : String → Int → Int → Except String (List (Nat × Nat)))
    (s e ss m c : Int) (L : List Trial) (prof : Option Int) (data : List (Nat × Nat))
    (heval : evalFn (upperAscii kw) c m = Except.ok data) :
    HandleCommand [kw] evalFn (encodeStep s e ss m c) L prof =
      stepOutcome kw s e ss m c L prof data := by
  unfold HandleCommand stepOutcome
  rw [if_neg (encodeStep_ne_empty s e ss m c)]
  simp only [encodeStep_take4, if_pos rfl, decodeStep_encodeStep]
  simp only [runKeywords, stepKeyword, heval]
  unfold peakCheck
  simp only [mkTrial]
  by_cases hpk :
      Frac.lt (evalRecordings data).f1
        (maxF1 (L ++ [⟨upperAscii kw, c, (evalRecordings data).precision,
          (evalRecordings data).«recall», (evalRecordings data).f1⟩]))
  · simp only [hpk, if_true]
    by_cases hct :
        countAt (L ++ [⟨upperAscii kw, c, (evalRecordings data).precision,
            (evalRecordings data).«recall», (evalRecordings data).f1⟩])
          (maxF1 (L ++ [⟨upperAscii kw, c, (evalRecordings data).precision,
            (evalRecordings data).«recall», (evalRecordings data).f1⟩])) = 1
    · simp only [hct, if_pos rfl, if_true]
      simp
    · simp only [hct, if_false]
      by_cases hsm : m < 100
      · simp only [hsm, if_true, if_neg (encodeStep_ne_finish s e ss m c)]
        simp
      · simp only [hsm, if_false, if_pos rfl]
        simp
  · simp only [hpk, if_false, if_neg (encodeStep_ne_finish s e ss m c)]
    simp

theorem HandleCommand_finish (keywords : List String)
    (evalFn : String → Int → Int → Except String (List (Nat × Nat)))
    (L : List Trial) (prof : Option Int) :
    HandleCommand keywords evalFn "finish" L prof =
      ⟨[dividerLine, bestLine 0], "", L, some 0, false⟩ := rfl

/-- The `start` recomputed by the SQL of source lines 323-354: the largest
ledger threshold strictly below the smallest threshold achieving the
maximum f1, falling back to the smallest ledger threshold. -/
def newLowerOf (L' : List Trial) : Int :=
  minThresholdBelow L' (minThresholdAchieving L' (maxF1 L'))

/-- Claim C3 (confirmed): on a step whose just-recorded trial has f1
strictly below the ledger's maximum while exactly one row attains that
maximum, the invocation finishes: the terminal sentinel is returned and the
persisted best threshold is `min_threshold_below (min_threshold_achieving
peakF1)` over the round's ledger including the new trial. -/
theorem claim_C3_unique_peak (kw : String)
    (evalFn : String → Int → Int → Except String (List (Nat × Nat)))
    (s e ss m c : Int) (L : List Trial) (prof : Option Int) (data : List (Nat × Nat))
    (heval : evalFn (upperAscii kw) c m = Except.ok data)
    (hpeak : Frac.lt (trialOf kw c data).f1 (maxF1 (L ++ [trialOf kw c data])))
    (hcount : countAt (L ++ [trialOf kw c data]) (maxF1 (L ++ [trialOf kw c data])) = 1) :
    HandleCommand [kw] evalFn (encodeStep s e ss m c) L prof =
      ⟨[trialLine (trialOf kw c data) (evalRecordings data), dividerLine,
          bestLine (newLowerOf (L ++ [trialOf kw c data]))],
        "", L ++ [trialOf kw c data],
        some (newLowerOf (L ++ [trialOf kw c data])), false⟩ := by
  rw [HandleCommand_step kw evalFn s e ss m c L prof data heval]
  unfold stepOutcome newLowerOf
  simp only [trialOf] at hpeak hcount
  simp only [mkTrial] at hpeak hcount ⊢
  simp only [trialOf, mkTrial]
  rw [if_pos hpeak, if_pos hcount]

/-- Claim C4 amended (the successor-state clauses of the claim; the
strict-narrowing clause is refuted separately): on a step that detects the
peak has been passed with more than one row tied at the maximum and
`samples < 100`, the table is cleared and the next token is
`step:newLower:cursor:stepsize:samples*2:newLower` — the new round starts
and resumes at `newLower`, ends at the old cursor, keeps the stepsize and
exactly doubles the sample budget; the profile entry is untouched. -/
theorem claim_C4_plateau_refine (kw : String)
    (evalFn : String → Int → Int → Except String (List (Nat × Nat)))
    (s e ss m c : Int) (L : List Trial) (prof : Option Int) (data : List (Nat × Nat))
    (heval : evalFn (upperAscii kw) c m = Except.ok data)
    (hpeak : Frac.lt (trialOf kw c data).f1 (maxF1 (L ++ [trialOf kw c data])))
    (hcount : countAt (L ++ [trialOf kw c data]) (maxF1 (L ++ [trialOf kw c data])) ≠ 1)
    (hsm : m < 100) :
    HandleCommand [kw] evalFn (encodeStep s e ss m c) L prof =
      ⟨[trialLine (trialOf kw c data) (evalRecordings data)],
        encodeStep (newLowerOf (L ++ [trialOf kw c data])) c ss (m * 2)
          (newLowerOf (L ++ [trialOf kw c data])),
        [], prof, false⟩ ∧
    decodeStep (HandleCommand [kw] evalFn (encodeStep s e ss m c) L prof).nextcommand =
      some ⟨newLowerOf (L ++ [trialOf kw c data]), c, ss, m * 2,
        newLowerOf (L ++ [trialOf kw c data])⟩ := by
  have hmain :
      HandleCommand [kw] evalFn (encodeStep s e ss m c) L prof =
        ⟨[trialLine (trialOf kw c data) (evalRecordings data)],
          encodeStep (newLowerOf (L ++ [trialOf kw c data])) c ss (m * 2)
            (newLowerOf (L ++ [trialOf kw c data])),
          [], prof, false⟩ := by
    rw [HandleCommand_step kw evalFn s e ss m c L prof data heval]
    unfold stepOutcome newLowerOf
    simp only [trialOf] at hpeak hcount
    simp only [mkTrial] at hpeak hcount ⊢
    simp only [trialOf, mkTrial]
    rw [if_pos hpeak, if_neg hcount, if_pos hsm]
  refine ⟨hmain, ?_⟩
  rw [hmain]
  exact decodeStep_encodeStep _ _ _ _ _

/-- Claim C7 (confirmed, for a nonempty input token and the plugin's single
configured keyword): when a step fails — token-parse failure or any
decoder/corpus/configuration failure inside the evaluation — the invocation
still returns, the next token is forced to the terminal sentinel `""`, a
failure line is appended to the report, the table keeps exactly the rows
committed before the step, and the profile entry is untouched. -/
theorem claim_C7_failure_aborts_step (kw : String)
    (evalFn : String → Int → Int → Except String (List (Nat × Nat)))
    (command : String) (L : List Trial) (prof : Option Int)
    (hne : command ≠ "")
    (hfail : (HandleCommand [kw] evalFn command L prof).failed = true) :
    (HandleCommand [kw] evalFn command L prof).nextcommand = "" ∧
    (HandleCommand [kw] evalFn command L prof).ledger = L ∧
    (HandleCommand [kw] evalFn command L prof).profileVar = prof ∧
    ∃ msg, failureLine msg ∈ (HandleCommand [kw] evalFn command L prof).response := by
  revert hfail
  unfold HandleCommand
  rw [if_neg hne]
  by_cases h4 : command.toList.take 4 = ['s', 't', 'e', 'p']
  · rw [if_pos h4]
    cases hdec : decodeStep command with
    | none =>
      intro _
      exact ⟨rfl, rfl, rfl, "Unknown", by simp⟩
    | some p =>
      simp only [runKeywords, stepKeyword]
      cases hev : evalFn (upperAscii kw) p.cursor p.samples with
      | error msg =>
        intro _
        exact ⟨rfl, rfl, rfl, msg, by simp⟩
      | ok data =>
        simp only [runKeywords]
        intro hfail
        exfalso
        revert hfail
        split <;> (split <;> simp)
  · rw [if_neg h4]
    by_cases hf : command = "finish"
    · rw [if_pos hf]
      intro hfail
      simp at hfail
    · rw [if_neg hf]
      intro hfail
      simp at hfail

/-- Claim C10 (confirmed): when the corpus query returns no recordings the
loop body still inserts a trial row for the keyword at the cursor threshold
whose precision, recall and f1 are all zero, and hands the peak check a
ledger that ends with exactly this row, so the zero row takes part in the
round's `max(f1)` peak detection. -/
theorem claim_C10_zero_sample_row
    (evalFn : String → Int → Int → Except String (List (Nat × Nat)))
    (threshold stepsize : Int) (st : LoopSt) (kw : String)
    (h : evalFn (upperAscii kw) threshold st.samples = Except.ok []) :
    stepKeyword evalFn threshold stepsize st kw =
      (peakCheck threshold stepsize Frac.zero
        { st with
            ledger := st.ledger ++
              [⟨upperAscii kw, threshold, Frac.zero, Frac.zero, Frac.zero⟩],
            response := st.response ++
              [trialLine ⟨upperAscii kw, threshold, Frac.zero, Frac.zero, Frac.zero⟩
                initialCounts] },
        none) ∧
    (⟨upperAscii kw, threshold, Frac.zero, Frac.zero, Frac.zero⟩ : Trial) ∈
      st.ledger ++ [⟨upperAscii kw, threshold, Frac.zero, Frac.zero, Frac.zero⟩] ∧
    evalRecordings [] = initialCounts ∧
    initialCounts.precision.toRat = 0 ∧ initialCounts.«recall».toRat = 0 ∧
    initialCounts.f1.toRat = 0 := by
  refine ⟨?_, by simp, rfl, Frac.toRat_zero, Frac.toRat_zero, Frac.toRat_zero⟩
  simp only [stepKeyword, h]
  rfl

/-! ### Termination of the whole search (claim C5) -/

theorem listMinInt_mem (l : List Int) (h : l ≠ []) : listMinInt l ∈ l := by
  induction l with
  | nil => exact absurd rfl h
  | cons x xs ih =>
    cases xs with
    | nil => simp [listMinInt]
    | cons y ys =>
      simp only [listMinInt]
      rcases le_total x (listMinInt (y :: ys)) with hle | hle
      · simp [min_eq_left hle]
      · rw [min_eq_right hle]
        exact List.mem_cons_of_mem x (ih (by simp))

theorem listMaxInt_mem (l : List Int) (h : l ≠ []) : listMaxInt l ∈ l := by
  induction l with
  | nil => exact absurd rfl h
  | cons x xs ih =>
    cases xs with
    | nil => simp [listMaxInt]
    | cons y ys =>
      simp only [listMaxInt]
      rcases le_total x (listMaxInt (y :: ys)) with hle | hle
      · rw [max_eq_right hle]
        exact List.mem_cons_of_mem x (ih (by simp))
      · simp [max_eq_left hle]

theorem minThresholdBelow_mem (l : List Trial) (h : l ≠ []) (b : Int) :
    minThresholdBelow l b ∈ l.map Trial.threshold := by
  simp only [minThresholdBelow]
  split
  · apply listMinInt_mem
    simpa using h
  case isFalse hne =>
    have hmem := listMaxInt_mem ((l.map Trial.threshold).filter fun t => decide (t < b))
      (by simpa [List.isEmpty_iff] using hne)
    exact List.mem_of_mem_filter hmem

theorem minThresholdBelow_bounds (l : List Trial) (h : l ≠ []) (b lo hi : Int)
    (hall : ∀ t ∈ l, lo ≤ t.threshold ∧ t.threshold ≤ hi) :
    lo ≤ minThresholdBelow l b ∧ minThresholdBelow l b ≤ hi := by
  have hm := minThresholdBelow_mem l h b
  rw [List.mem_map] at hm
  obtain ⟨t, htl, hte⟩ := hm
  rw [← hte]
  exact hall t htl

/-- Fuel sufficient for one scanning round of remaining width `rem`:
`⌈rem/k⌉` cursor advances, the evaluation of the final cursor position,
the possible trailing `finish` invocation, and slack. -/
def stepsFuel (rem k : Nat) : Nat := (rem + k - 1) / k + 3

/-- Fuel sufficient for a round of width `w` followed by up to `R`
refinement rounds, each of which may overshoot the previous window by up
to one step. -/
def searchFuel (k : Nat) : Nat → Nat → Nat
  | 0, w => stepsFuel w k
  | R + 1, w => stepsFuel w k + searchFuel k R (w + k)

theorem stepsFuel_ge_three (rem k : Nat) : 3 ≤ stepsFuel rem k :=
  Nat.le_add_left 3 _

theorem stepsFuel_mono (k : Nat) {w w' : Nat} (h : w ≤ w') : stepsFuel w k ≤ stepsFuel w' k := by
  unfold stepsFuel
  have := Nat.div_le_div_right (c := k) (by omega : w + k - 1 ≤ w' + k - 1)
  omega

theorem searchFuel_mono (k R : Nat) : ∀ {w w' : Nat}, w ≤ w' →
    searchFuel k R w ≤ searchFuel k R w' := by
  induction R with
  | zero => intro w w' h; exact stepsFuel_mono k h
  | succ R ih =>
    intro w w' h
    simp only [searchFuel]
    have h1 := ih (by omega : w + k ≤ w' + k)
    have h2 := stepsFuel_mono k h
    omega

theorem stepsFuel_dec (k rem : Nat) (hk : 0 < k) (hrem : 1 ≤ rem) :
    stepsFuel (rem - k) k + 1 ≤ stepsFuel rem k := by
  unfold stepsFuel
  rcases le_or_lt k rem with h | h
  · have e1 : rem - k + k - 1 = rem - 1 := by omega
    have e2 : rem + k - 1 = (rem - 1) + k := by omega
    rw [e1, e2, Nat.add_div_right _ hk]
  · have e1 : rem - k = 0 := by omega
    rw [e1]
    have h0 : (0 + k - 1) / k = 0 := Nat.div_eq_of_lt (by omega)
    have h1 : 1 ≤ (rem + k - 1) / k := by
      rw [Nat.le_div_iff_mul_le hk]
      omega
    omega

theorem roundTerminates (kw : String)
    (evalFn : String → Int → Int → Except String (List (Nat × Nat)))
    (htot : ∀ k t n, ∃ d, evalFn k t n = Except.ok d)
    (ss m : Int) (hss : 0 < ss) (s e : Int) (B : Nat)
    (href : ∀ (nl c' : Int) (prof : Option Int) (fuel' : Nat),
        m < 100 → nl ≤ c' → (c' - nl).toNat ≤ (e - s).toNat + ss.toNat → B ≤ fuel' →
        (runSearch [kw] evalFn fuel' (encodeStep nl c' ss (m * 2) nl) [] prof).isSome = true) :
    ∀ n : Nat, ∀ (c : Int) (L : List Trial) (prof : Option Int) (fuel : Nat),
      (e - c).toNat ≤ n → s ≤ c → (c = s ∨ c < e + ss) →
      (∀ t ∈ L, s ≤ t.threshold ∧ t.threshold ≤ c) →
      stepsFuel (e - c).toNat ss.toNat + B ≤ fuel →
      (runSearch [kw] evalFn fuel (encodeStep s e ss m c) L prof).isSome = true := by
  intro n
  induction n using Nat.strong_induction_on with
  | _ n ih =>
  intro c L prof fuel hn hsc hover hL hfuel
  have hf3 := stepsFuel_ge_three (e - c).toNat ss.toNat
  obtain ⟨f, rfl⟩ : ∃ f, fuel = f + 1 := ⟨fuel - 1, by omega⟩
  obtain ⟨data, hdata⟩ := htot (upperAscii kw) c m
  have hchar := HandleCommand_step kw evalFn s e ss m c L prof data hdata
  simp only [runSearch, hchar]
  clear hchar
  simp only [stepOutcome, mkTrial]
  set Tr : Trial := ⟨upperAscii kw, c, (evalRecordings data).precision,
      (evalRecordings data).«recall», (evalRecordings data).f1⟩ with hTr
  have hallc : ∀ t ∈ L ++ [Tr], s ≤ t.threshold ∧ t.threshold ≤ c := by
    intro t ht
    rcases List.mem_append.mp ht with h | h
    · exact ⟨(hL t h).1, (hL t h).2⟩
    · simp only [List.mem_singleton] at h
      subst h
      rw [hTr]
      exact ⟨hsc, le_rfl⟩
  by_cases hpk : Frac.lt (evalRecordings data).f1 (maxF1 (L ++ [Tr]))
  · rw [if_pos hpk]
    by_cases hct : countAt (L ++ [Tr]) (maxF1 (L ++ [Tr])) = 1
    · rw [if_pos hct]
      simp
    · rw [if_neg hct]
      by_cases hsm : m < 100
      · rw [if_pos hsm]
        set nl := minThresholdBelow (L ++ [Tr])
          (minThresholdAchieving (L ++ [Tr]) (maxF1 (L ++ [Tr]))) with hnl
        rw [if_neg (encodeStep_ne_empty _ _ _ _ _)]
        have hne : (L ++ [Tr]) ≠ [] := by simp
        obtain ⟨hnl_lo, hnl_hi⟩ :=
          minThresholdBelow_bounds (L ++ [Tr]) hne
            (minThresholdAchieving (L ++ [Tr]) (maxF1 (L ++ [Tr]))) s c hallc
        have hwidth : (c - nl).toNat ≤ (e - s).toNat + ss.toNat := by
          rcases hover with h | h
          · omega
          · omega
        have hrec := href nl c prof f hsm hnl_hi hwidth (by omega)
        cases hr : runSearch [kw] evalFn f (encodeStep nl c ss (m * 2) nl) [] prof with
        | none => rw [hr] at hrec; simp at hrec
        | some x =>
          obtain ⟨k', l', p'⟩ := x
          simp [hr]
      · rw [if_neg hsm]
        simp
  · rw [if_neg hpk]
    by_cases hce : c < e
    · rw [if_pos hce]
      rw [if_neg (encodeStep_ne_empty _ _ _ _ _)]
      have hrem1 : 1 ≤ (e - c).toNat := by omega
      have hn' : (e - (c + ss)).toNat < n := by omega
      have hfuel' : stepsFuel (e - (c + ss)).toNat ss.toNat + B ≤ f := by
        have hdec := stepsFuel_dec ss.toNat (e - c).toNat (by omega) hrem1
        have heq : (e - (c + ss)).toNat = (e - c).toNat - ss.toNat := by omega
        rw [heq]
        omega
      have hallc' : ∀ t ∈ L ++ [Tr], s ≤ t.threshold ∧ t.threshold ≤ c + ss := by
        intro t ht
        exact ⟨(hallc t ht).1, by have := (hallc t ht).2; omega⟩
      have hrec := ih (e - (c + ss)).toNat hn' (c + ss) (L ++ [Tr]) prof f le_rfl
        (by omega) (Or.inr (by omega)) hallc' hfuel'
      cases hr : runSearch [kw] evalFn f (encodeStep s e ss m (c + ss)) (L ++ [Tr]) prof with
      | none => rw [hr] at hrec; simp at hrec
      | some x =>
        obtain ⟨k', l', p'⟩ := x
        simp [hr]
    · rw [if_neg hce]
      rw [if_neg (by decide : ¬("finish" = ""))]
      obtain ⟨f', rfl⟩ : ∃ f', f = f' + 1 := ⟨f - 1, by omega⟩
      simp only [runSearch, HandleCommand_finish]
      simp

theorem runSearch_bound (kw : String)
    (evalFn : String → Int → Int → Except String (List (Nat × Nat)))
    (htot : ∀ k t n, ∃ d, evalFn k t n = Except.ok d)
    (ss : Int) (hss : 0 < ss) :
    ∀ (R : Nat) (m : Int), 1 ≤ m → 100 ≤ m * 2 ^ R →
    ∀ (s e : Int) (prof : Option Int) (fuel : Nat),
      searchFuel ss.toNat R (e - s).toNat ≤ fuel →
      (runSearch [kw] evalFn fuel (encodeStep s e ss m s) [] prof).isSome = true := by
  intro R
  induction R with
  | zero =>
    intro m hm h100 s e prof fuel hfuel
    have hm100 : (100 : Int) ≤ m := by simpa using h100
    exact roundTerminates kw evalFn htot ss m hss s e 0
      (fun nl c' prof' fuel' hlt _ _ _ => absurd hlt (by omega))
      ((e - s).toNat) s [] prof fuel le_rfl le_rfl (Or.inl rfl)
      (fun t ht => absurd ht (List.not_mem_nil t))
      (by simpa [searchFuel] using hfuel)
  | succ R' ihR =>
    intro m hm h100 s e prof fuel hfuel
    have href : ∀ (nl c' : Int) (prof' : Option Int) (fuel' : Nat),
        m < 100 → nl ≤ c' → (c' - nl).toNat ≤ (e - s).toNat + ss.toNat →
        searchFuel ss.toNat R' ((e - s).toNat + ss.toNat) ≤ fuel' →
        (runSearch [kw] evalFn fuel' (encodeStep nl c' ss (m * 2) nl) [] prof').isSome
          = true := by
      intro nl c' prof' fuel' _ _ hwidth hf
      have h100' : (100 : Int) ≤ m * 2 * 2 ^ R' := by
        have : m * 2 * 2 ^ R' = m * 2 ^ (R' + 1) := by ring
        rw [this]
        exact h100
      exact ihR (m * 2) (by omega) h100' nl c' prof' fuel'
        (le_trans (searchFuel_mono ss.toNat R' hwidth) hf)
    exact roundTerminates kw evalFn htot ss m hss s e
      (searchFuel ss.toNat R' ((e - s).toNat + ss.toNat)) href
      ((e - s).toNat) s [] prof fuel le_rfl le_rfl (Or.inl rfl)
      (fun t ht => absurd ht (List.not_mem_nil t))
      (by simpa [searchFuel] using hfuel)

/-! ### Claim C5 -/

/-- An evaluator whose every trial scores f1 = 1: the scan climbs to the
end of the window and never refines. -/
def climbEval : String → Int → Int → Except String (List (Nat × Nat)) :=
  fun _ _ _ => .ok [(1, 1)]

/-- Claim C5 counterexample: window `start=0, end=5, stepsize=1,
samples=100`.  With `samples = 100` the claim's refinement-round allowance
`⌈log2(100/initial_samples)⌉` is `0`, so the claimed bound is
`(end−start)/stepsize = 5` invocations; but six invocations are not enough
to reach the terminal sentinel (the scan evaluates the six cursor positions
0..5 inclusive and still has to process the `finish` token). -/
theorem claim_C5_counterexample :
    runSearch ["NAOMI"] climbEval 6 "step:0:5:1:100:0" [] none = none ∧
    (runSearch ["NAOMI"] climbEval 7 "step:0:5:1:100:0" [] none).isSome = true ∧
    decodeStep "step:0:5:1:100:0" = some ⟨0, 5, 1, 100, 0⟩ ∧
    ((5 : Int) - 0) / 1 = 5 := by decide

/-- Claim C5 amended (proved): for every window with `stepsize > 0` and
`samples ≥ 1`, a single configured keyword and a deterministic, non-failing
evaluator, re-invoking on each returned token reaches the terminal sentinel
within `searchFuel` invocations: `⌈(end_r−start_r)/stepsize⌉ + 1` evaluation
steps per round (one more than the claim's `(end−start)/stepsize`, because
the scan evaluates both window ends) plus the trailing `finish` invocation
and slack, over at most `R` refinement rounds where `100 ≤ samples·2^R`
(i.e. `⌈log2(100/initial_samples)⌉` rounds), each refinement widening the
next window by less than one stepsize. -/
theorem claim_C5_bounded_termination (kw : String)
    (evalFn : String → Int → Int → Except String (List (Nat × Nat)))
    (s e ss m : Int) (R : Nat) (prof : Option Int) (fuel : Nat)
    (htot : ∀ k t n, ∃ d, evalFn k t n = Except.ok d)
    (hss : 0 < ss) (hm : 1 ≤ m) (hR : 100 ≤ m * 2 ^ R)
    (hfuel : searchFuel ss.toNat R (e - s).toNat ≤ fuel) :
    (runSearch [kw] evalFn fuel (encodeStep s e ss m s) [] prof).isSome = true :=
  runSearch_bound kw evalFn htot ss hss R m hm hR s e prof fuel hfuel

/-- Witness for the amended claim C5 on the window `0..5`, stepsize 1,
samples 100 (no refinement allowance): `searchFuel 1 0 5 = 8` invocations
suffice. -/
theorem claim_C5_witness :
    (runSearch ["NAOMI"] climbEval (searchFuel 1 0 ((5 : Int) - 0).toNat)
      (encodeStep 0 5 1 100 0) [] none).isSome = true :=
  claim_C5_bounded_termination "NAOMI" climbEval 0 5 1 100 0 none
    (searchFuel 1 0 ((5 : Int) - 0).toNat)
    (fun _ _ _ => ⟨[(1, 1)], rfl⟩) (by decide) (by decide) (by decide) le_rfl

/-! ### Claim C1 -/

/-- Claim C1, behavior at a failing input: a scan that is still climbing
when the cursor reaches the window end returns the `finish` token (no
failure), yet the following `finish` invocation persists threshold `0` —
the initialized `best` — although the smallest threshold achieving the
round's maximum f1 is `5`: the finish path never consults the ledger. -/
theorem claim_C1_scan_end_persists_zero :
    (HandleCommand ["NAOMI"] climbEval "step:5:5:1:2:5" [] none).nextcommand = "finish" ∧
    (HandleCommand ["NAOMI"] climbEval "step:5:5:1:2:5" [] none).failed = false ∧
    minThresholdAchieving (HandleCommand ["NAOMI"] climbEval "step:5:5:1:2:5" [] none).ledger
      (maxF1 (HandleCommand ["NAOMI"] climbEval "step:5:5:1:2:5" [] none).ledger) = 5 ∧
    (HandleCommand ["NAOMI"] climbEval "finish"
        (HandleCommand ["NAOMI"] climbEval "step:5:5:1:2:5" [] none).ledger
        (HandleCommand ["NAOMI"] climbEval "step:5:5:1:2:5" [] none).profileVar).profileVar
      = some 0 := by decide

/-! ### Claim C2 -/

/-- The scenario's stub evaluator: f1 = 0.2 at threshold −10 (one recording
with 1 ground-truth occurrence, 9 detections), 0.9 at 0 (9 occurrences,
11 detections), 0.6 at 10 (3 occurrences, 7 detections). -/
def naomiEval : String → Int → Int → Except String (List (Nat × Nat)) :=
  fun _ t _ =>
    if t = -10 then .ok [(1, 9)] else if t = 0 then .ok [(9, 11)]
    else if t = 10 then .ok [(3, 7)] else .ok []

def naomiRun1 : StepResult :=
  HandleCommand ["NAOMI"] naomiEval "step:-10:10:10:4:-10" [] none

def naomiRun2 : StepResult :=
  HandleCommand ["NAOMI"] naomiEval naomiRun1.nextcommand naomiRun1.ledger naomiRun1.profileVar

def naomiRun3 : StepResult :=
  HandleCommand ["NAOMI"] naomiEval naomiRun2.nextcommand naomiRun2.ledger naomiRun2.profileVar

/-- Claim C2 counterexample: the scenario does reach the terminal sentinel
at the step at threshold 10, but the persisted best threshold is not 0. -/
theorem claim_C2_counterexample :
    naomiRun3.nextcommand = "" ∧ naomiRun3.profileVar ≠ some 0 := by decide

/-- Claim C2 amended (proved): the run evaluates thresholds −10, 0, 10 with
f1 values 1/5, 9/10, 3/5; the step at threshold 10 detects the drop
(max f1 = 9/10, exactly one row attains it) and the controller reaches
Done with bestThreshold = −10, the largest ledger threshold strictly below
the unique peak threshold 0 (the `newLower` of the unique-optimum branch),
not 0. -/
theorem claim_C2_scenario :
    Frac.eqv (trialOf "NAOMI" (-10) [(1, 9)]).f1 ⟨1, 5⟩ ∧
    Frac.eqv (trialOf "NAOMI" 0 [(9, 11)]).f1 ⟨9, 10⟩ ∧
    Frac.eqv (trialOf "NAOMI" 10 [(3, 7)]).f1 ⟨3, 5⟩ ∧
    naomiRun1.nextcommand = encodeStep (-10) 10 10 4 0 ∧
    naomiRun2.nextcommand = encodeStep (-10) 10 10 4 10 ∧
    naomiRun3.ledger.map Trial.threshold = [-10, 0, 10] ∧
    Frac.eqv (maxF1 naomiRun3.ledger) ⟨9, 10⟩ ∧
    countAt naomiRun3.ledger (maxF1 naomiRun3.ledger) = 1 ∧
    naomiRun3.nextcommand = "" ∧
    naomiRun3.profileVar = some (-10) := by decide

/-! ### Claim C4: counterexample to strict narrowing -/

/-- Evaluator for the plateau scenario: f1 = 0.3 at threshold 10. -/
def plateauEval : String → Int → Int → Except String (List (Nat × Nat)) :=
  fun _ t _ => if t = 10 then .ok [(3, 17)] else .ok []

/-- Two earlier rows of the round, tied at f1 = 0.9 at thresholds −10
and 0. -/
def plateauLedger : List Trial :=
  [⟨"A", -10, ⟨1, 1⟩, ⟨1, 1⟩, ⟨9, 10⟩⟩, ⟨"A", 0, ⟨1, 1⟩, ⟨1, 1⟩, ⟨9, 10⟩⟩]

/-- Claim C4 counterexample: at window `[-10, 10]`, stepsize 10, samples 4,
cursor 10, the drop at threshold 10 finds two rows tied at the maximum and
refines — but `newLower = −10` (the fallback: no ledger threshold lies
below the smallest tied threshold) and the old cursor equals the old end,
so the successor window `[−10, 10]` is the old window, not strictly
narrower. -/
theorem claim_C4_counterexample :
    Frac.lt (trialOf "A" 10 [(3, 17)]).f1
      (maxF1 (plateauLedger ++ [trialOf "A" 10 [(3, 17)]])) ∧
    countAt (plateauLedger ++ [trialOf "A" 10 [(3, 17)]])
      (maxF1 (plateauLedger ++ [trialOf "A" 10 [(3, 17)]])) = 2 ∧
    ((4 : Int) < 100) ∧
    (HandleCommand ["A"] plateauEval "step:-10:10:10:4:10" plateauLedger none).ledger = [] ∧
    decodeStep
        (HandleCommand ["A"] plateauEval "step:-10:10:10:4:10" plateauLedger none).nextcommand
      = some ⟨-10, 10, 10, 8, -10⟩ ∧
    ¬((-10 : Int) < -10 ∨ (10 : Int) < 10) := by decide

/-- Witness for the amended claim C4, at the same plateau input. -/
theorem claim_C4_witness :
    HandleCommand ["A"] plateauEval (encodeStep (-10) 10 10 4 10) plateauLedger none =
      ⟨[trialLine (trialOf "A" 10 [(3, 17)]) (evalRecordings [(3, 17)])],
        encodeStep (newLowerOf (plateauLedger ++ [trialOf "A" 10 [(3, 17)]])) 10 10 (4 * 2)
          (newLowerOf (plateauLedger ++ [trialOf "A" 10 [(3, 17)]])),
        [], none, false⟩ ∧
    decodeStep
        (HandleCommand ["A"] plateauEval (encodeStep (-10) 10 10 4 10)
          plateauLedger none).nextcommand
      = some ⟨newLowerOf (plateauLedger ++ [trialOf "A" 10 [(3, 17)]]), 10, 10, 4 * 2,
          newLowerOf (plateauLedger ++ [trialOf "A" 10 [(3, 17)]])⟩ :=
  claim_C4_plateau_refine "A" plateauEval (-10) 10 10 4 10 plateauLedger none [(3, 17)]
    rfl (by decide) (by decide) (by decide)

/-! ### Claim C3: witness -/

/-- Evaluator for the unique-peak witness: f1 = 0.3 at threshold 5. -/
def uniquePeakEval : String → Int → Int → Except String (List (Nat × Nat)) :=
  fun _ t _ => if t = 5 then .ok [(3, 17)] else .ok []

/-- One earlier row of the round: f1 = 0.9 at threshold 0. -/
def uniquePeakLedger : List Trial := [⟨"A", 0, ⟨1, 1⟩, ⟨1, 1⟩, ⟨9, 10⟩⟩]

/-- Witness for claim C3: the drop at threshold 5 finds a unique maximum
and finishes with the persisted best threshold `newLower = 0`. -/
theorem claim_C3_witness :
    HandleCommand ["A"] uniquePeakEval (encodeStep 0 9 1 4 5) uniquePeakLedger none =
      ⟨[trialLine (trialOf "A" 5 [(3, 17)]) (evalRecordings [(3, 17)]), dividerLine,
          bestLine (newLowerOf (uniquePeakLedger ++ [trialOf "A" 5 [(3, 17)]]))],
        "", uniquePeakLedger ++ [trialOf "A" 5 [(3, 17)]],
        some (newLowerOf (uniquePeakLedger ++ [trialOf "A" 5 [(3, 17)]])), false⟩ :=
  claim_C3_unique_peak "A" uniquePeakEval 0 9 1 4 5 uniquePeakLedger none [(3, 17)]
    rfl (by decide) (by decide)

/-! ### Claim C7: witness -/

/-- An evaluator standing for a decoder/corpus/configuration failure. -/
def failEval : String → Int → Int → Except String (List (Nat × Nat)) :=
  fun _ _ _ => .error "[Errno 2] No such file or directory"

/-- Witness for claim C7 at a failing evaluation with two prior rows. -/
theorem claim_C7_witness :
    (HandleCommand ["NAOMI"] failEval "step:-10:10:1:20:-8" plateauLedger none).nextcommand
        = "" ∧
    (HandleCommand ["NAOMI"] failEval "step:-10:10:1:20:-8" plateauLedger none).ledger
        = plateauLedger ∧
    (HandleCommand ["NAOMI"] failEval "step:-10:10:1:20:-8" plateauLedger none).profileVar
        = none ∧
    ∃ msg, failureLine msg ∈
      (HandleCommand ["NAOMI"] failEval "step:-10:10:1:20:-8" plateauLedger none).response :=
  claim_C7_failure_aborts_step "NAOMI" failEval "step:-10:10:1:20:-8" plateauLedger none
    (by decide) (by decide)

/-! ### Claim C10: witness -/

/-- An evaluator whose corpus query returns no recordings. -/
def emptyCorpusEval : String → Int → Int → Except String (List (Nat × Nat)) :=
  fun _ _ _ => .ok []

/-- Witness for claim C10 at threshold 3, stepsize 1, a mid-round loop
state with one prior row. -/
theorem claim_C10_witness :
    stepKeyword emptyCorpusEval 3 1
      ⟨uniquePeakLedger, [], 0, "step:0:9:1:4:3", "step:0:9:1:4:4", true, 0, 9, 4⟩ "NAOMI" =
      (peakCheck 3 1 Frac.zero
        ({ ledger := uniquePeakLedger, response := [], best := 0,
           command := "step:0:9:1:4:3", nextcommand := "step:0:9:1:4:4",
           continueNext := true, start := 0, stop := 9, samples := 4 : LoopSt} |>
          (fun st => { st with
            ledger := st.ledger ++
              [⟨upperAscii "NAOMI", 3, Frac.zero, Frac.zero, Frac.zero⟩],
            response := st.response ++
              [trialLine ⟨upperAscii "NAOMI", 3, Frac.zero, Frac.zero, Frac.zero⟩
                initialCounts] })),
        none) ∧
    (⟨upperAscii "NAOMI", 3, Frac.zero, Frac.zero, Frac.zero⟩ : Trial) ∈
      uniquePeakLedger ++ [⟨upperAscii "NAOMI", 3, Frac.zero, Frac.zero, Frac.zero⟩] ∧
    evalRecordings [] = initialCounts ∧
    initialCounts.precision.toRat = 0 ∧ initialCounts.«recall».toRat = 0 ∧
    initialCounts.f1.toRat = 0 :=
  claim_C10_zero_sample_row emptyCorpusEval 3 1
    ⟨uniquePeakLedger, [], 0, "step:0:9:1:4:3", "step:0:9:1:4:4", true, 0, 9, 4⟩ "NAOMI"
    rfl
